import Mathlib

/-!
Verification of `robusta_krr/core/abstract/strategies.py`: the strategy
abstraction and registry of the krr resource-recommendation tool.

Shallow embedding conventions:
* Python `Decimal` values and the two `float` settings fields are modelled as
  exact rationals (`ℚ`); the code only stores them and compares them against
  small integer bounds, so no rounding behaviour is involved.
* A Python `dict` built by a comprehension is modelled as an association list
  whose insertion keeps the first position of a key and overwrites its value,
  exactly as CPython dicts do.
* Raising an exception is modelled with `Except` / `Option`; the structured
  error types carry the data the source interpolates into its messages.
-/

/-- Embedding of Python `str.lower()`: per-character lowercasing of the
string's characters (`Char.toLower` mirrors it on the basic latin range the
registry names use). -/
def pyLower (s : String) : String :=
  ⟨s.data.map Char.toLower⟩

theorem toNat_ofNat_of_isValidChar {n : Nat} (h : n.isValidChar) :
    (Char.ofNat n).toNat = n := by
  rw [Char.ofNat, dif_pos h]
  rfl

theorem char_toLower_idem (c : Char) : c.toLower.toLower = c.toLower := by
  unfold Char.toLower
  by_cases h : c.toNat ≥ 65 ∧ c.toNat ≤ 90
  · rw [if_pos h]
    have hv : (c.toNat + 32).isValidChar := Or.inl (by omega)
    have ht : (Char.ofNat (c.toNat + 32)).toNat = c.toNat + 32 :=
      toNat_ofNat_of_isValidChar hv
    rw [ht, if_neg (by omega)]
  · rw [if_neg h, if_neg h]

theorem pyLower_idem (s : String) : pyLower (pyLower s) = pyLower s := by
  cases s with
  | mk data =>
    simp only [pyLower, List.map_map]
    exact congrArg String.mk (List.map_congr_left fun c _ => char_toLower_idem c)

/-! ### ResourceRecommendation

`class ResourceRecommendation(pd.BaseModel): request: Optional[Decimal];
limit: Optional[Decimal]`.  Plain optional fields with no validators and no
bounds. -/

structure ResourceRecommendation where
  request : Option ℚ
  limit : Option ℚ
deriving DecidableEq

/-- Pydantic (v1) construction of `ResourceRecommendation`.  The outer
`Option` of each argument records whether the caller supplied the field at
all; an `Optional[Decimal]` field that is not supplied defaults to `None`.
No further validation is performed, so construction is total and the stored
values are exactly the supplied ones. -/
def constructResourceRecommendation (request : Option (Option ℚ))
    (limit : Option (Option ℚ)) : ResourceRecommendation :=
  ⟨request.getD none, limit.getD none⟩

/-! ### StrategySettings -/

structure StrategySettings where
  history_duration : ℚ
  timeframe_duration : ℚ
deriving DecidableEq

/-- A pydantic `ValidationError` for this schema: the names of the fields
that violated their declared constraint. -/
structure SchemaViolation where
  fields : List String
deriving DecidableEq

/-- Pydantic construction of `StrategySettings`.  Each argument's outer
`Option` records whether the field was supplied; an omitted field takes its
declared default (`24 * 7 * 2 = 336` hours, `15` minutes).  Each field is
checked against its `ge=1` bound; pydantic collects every violated field and
raises a `ValidationError` naming them, otherwise the values are stored
unchanged. -/
def validateStrategySettings (history_duration : Option ℚ)
    (timeframe_duration : Option ℚ) : Except SchemaViolation StrategySettings :=
  let h := history_duration.getD (24 * 7 * 2)
  let t := timeframe_duration.getD 15
  let errs := (if h < 1 then ["history_duration"] else [])
    ++ (if t < 1 then ["timeframe_duration"] else [])
  if errs.isEmpty then .ok ⟨h, t⟩ else .error ⟨errs⟩

/-- Lookup of a key in a raw keyword mapping (first occurrence wins, as in a
Python dict built left to right). -/
def rawLookup {α : Type} (d : List (String × α)) (k : String) : Option α :=
  match d with
  | [] => none
  | p :: rest => if p.1 = k then some p.2 else rawLookup rest k

/-- Pydantic construction of `StrategySettings` from a raw keyword mapping.
The model reads only its declared fields; pydantic's default config
(`Extra.ignore`) silently drops every other key, so no extra key is stored
and none can cause a validation error. -/
def parseStrategySettings (raw : List (String × ℚ)) :
    Except SchemaViolation StrategySettings :=
  validateStrategySettings (rawLookup raw "history_duration")
    (rawLookup raw "timeframe_duration")

/-- `datetime.timedelta`, reduced to its total length in seconds (a
`timedelta` is exactly its signed tick count; seconds as `ℚ` carry the same
information). -/
structure Timedelta where
  total_seconds : ℚ
deriving DecidableEq

/-- `datetime.timedelta(hours=h)`: `h` hours is `h * 3600` seconds. -/
def timedelta_hours (h : ℚ) : Timedelta :=
  ⟨h * 3600⟩

/-- `datetime.timedelta(minutes=m)`: `m` minutes is `m * 60` seconds. -/
def timedelta_minutes (m : ℚ) : Timedelta :=
  ⟨m * 60⟩

/-- `StrategySettings.history_timedelta` property:
`datetime.timedelta(hours=self.history_duration)`.  A total function of the
stored field; no state is touched or modified. -/
def StrategySettings.history_timedelta (s : StrategySettings) : Timedelta :=
  timedelta_hours s.history_duration

/-- `StrategySettings.timeframe_timedelta` property:
`datetime.timedelta(minutes=self.timeframe_duration)`. -/
def StrategySettings.timeframe_timedelta (s : StrategySettings) : Timedelta :=
  timedelta_minutes s.timeframe_duration

/-! ### Strategy registry

`BaseStrategy.get_all()` builds
`{sub_cls.__display_name__.lower(): sub_cls for sub_cls in cls.__subclasses__()}`.
A concrete strategy type is represented by its identity (`id`, standing for
the class object itself) together with its `__display_name__` attribute; the
currently loaded subclass list is the parameter `subs`.  (The import of the
default strategies module that `get_all` triggers is an idempotent load that
only affects which subclasses exist; here it is part of choosing `subs`.) -/

structure StrategyType where
  id : Nat
  display_name : String
deriving DecidableEq

/-- One step of a Python dict comprehension: binding key `k` to value `v`
keeps the key's original position when `k` is already present (overwriting
its value) and appends the pair otherwise. -/
def dictInsert {α : Type} (d : List (String × α)) (k : String) (v : α) :
    List (String × α) :=
  if d.any (fun p => p.1 = k) then
    d.map (fun p => if p.1 = k then (k, v) else p)
  else
    d ++ [(k, v)]

/-- `BaseStrategy.get_all()`: the dict comprehension over the loaded
subclasses, keyed by lower-cased display name. -/
def get_all (subs : List StrategyType) : List (String × StrategyType) :=
  subs.foldl (fun d c => dictInsert d (pyLower c.display_name) c) []

/-- The `ValueError` raised by `BaseStrategy.find`: it interpolates the
requested name and joins the keys of `get_all()`. -/
structure UnknownStrategyError where
  name : String
  available : List String
deriving DecidableEq

/-- The exact message text of the `ValueError` raised by `find`. -/
def UnknownStrategyError.message (e : UnknownStrategyError) : String :=
  "Unknown strategy name: " ++ e.name ++ ". Available strategies: "
    ++ String.intercalate ", " e.available

/-- `BaseStrategy.find(name)`: look `name.lower()` up in `get_all()`; return
the match, or raise a `ValueError` carrying the original `name` and the list
of available names (iterating a dict yields its keys in insertion order). -/
def find (subs : List StrategyType) (name : String) :
    Except UnknownStrategyError StrategyType :=
  let strategies := get_all subs
  match rawLookup strategies (pyLower name) with
  | some t => .ok t
  | none => .error ⟨name, strategies.map Prod.fst⟩

/-! ### get_settings_type

`BaseStrategy.get_settings_type()` is `get_args(cls.__orig_bases__[0])[0]`.
`__orig_bases__` of a class declared `class S(BaseStrategy[SettingsSub])` is
the one-element tuple `(BaseStrategy[SettingsSub],)`.  A class declared
`class S(BaseStrategy)` gets no `__orig_bases__` of its own and attribute
lookup finds the tuple stored on `BaseStrategy` itself,
`(abc.ABC, Generic[_StrategySettings])`.  `typing.get_args` returns a
subscripted alias's arguments and `()` for a plain class; indexing `[0]`
into an empty tuple raises `IndexError`, modelled as `none`. -/

inductive TypeArg where
  /-- A concrete `StrategySettings` subtype, identified by its name. -/
  | settings (name : String)
  /-- A bare `TypeVar` such as `_StrategySettings`. -/
  | typeVar (name : String)
deriving DecidableEq

inductive OrigBase where
  /-- A plain (non-subscripted) base class such as `abc.ABC`. -/
  | plainClass
  /-- A subscripted generic alias such as `BaseStrategy[MarginSettings]`
  or `Generic[_StrategySettings]`. -/
  | subscripted (args : List TypeArg)
deriving DecidableEq

/-- `typing.get_args`. -/
def get_args : OrigBase → List TypeArg
  | .plainClass => []
  | .subscripted args => args

/-- `__orig_bases__` of a concrete strategy declared with a specialized
generic parameter, `class S(BaseStrategy[SettingsSub])`. -/
def origBasesSpecialized (settingsSub : String) : List OrigBase :=
  [.subscripted [.settings settingsSub]]

/-- `__orig_bases__` reached from a concrete strategy declared without
specializing the generic parameter, `class S(BaseStrategy)`: the tuple of
`BaseStrategy` itself, `(abc.ABC, Generic[_StrategySettings])`. -/
def origBasesUnspecialized : List OrigBase :=
  [.plainClass, .subscripted [.typeVar "_StrategySettings"]]

/-- `BaseStrategy.get_settings_type()`:
`get_args(cls.__orig_bases__[0])[0]`, where each `[0]` raises `IndexError`
(`none`) when the tuple is empty. -/
def get_settings_type (orig_bases : List OrigBase) : Option TypeArg :=
  (orig_bases.get? 0).bind fun b => (get_args b).get? 0

/-! ### Registry lemmas -/

/-- The value the comprehension leaves at key `k`: the last enumerated
subclass whose lower-cased display name is `k`. -/
def lastMatch (subs : List StrategyType) (k : String) : Option StrategyType :=
  subs.foldl (fun acc c => if pyLower c.display_name = k then some c else acc) none

/-- All entries of a built dict that carry the key `k`. -/
def entriesFor {α : Type} (d : List (String × α)) (k : String) :
    List (String × α) :=
  d.filter (fun p => p.1 = k)

theorem rawLookup_append_of_some {α : Type} {l l' : List (String × α)}
    {k : String} {v : α} (h : rawLookup l k = some v) :
    rawLookup (l ++ l') k = some v := by
  induction l with
  | nil => simp [rawLookup] at h
  | cons p rest ih =>
    rw [List.cons_append, rawLookup]
    rw [rawLookup] at h
    by_cases hp : p.1 = k
    · simpa [hp] using h
    · rw [if_neg hp] at h ⊢; exact ih h

theorem rawLookup_append_of_none {α : Type} {l : List (String × α)}
    {k : String} (h : rawLookup l k = none) (l' : List (String × α)) :
    rawLookup (l ++ l') k = rawLookup l' k := by
  induction l with
  | nil => rfl
  | cons p rest ih =>
    rw [rawLookup] at h
    by_cases hp : p.1 = k
    · simp [hp] at h
    · rw [if_neg hp] at h
      rw [List.cons_append, rawLookup, if_neg hp]
      exact ih h

theorem rawLookup_eq_none_of_not_mem {α : Type} {l : List (String × α)}
    {k : String} (h : k ∉ l.map Prod.fst) : rawLookup l k = none := by
  induction l with
  | nil => rfl
  | cons p rest ih =>
    simp only [List.map_cons, List.mem_cons] at h
    push_neg at h
    rw [rawLookup, if_neg (fun hp => h.1 hp.symm)]
    exact ih h.2

theorem not_mem_keys_of_rawLookup_eq_none {α : Type} {l : List (String × α)}
    {k : String} (h : rawLookup l k = none) : k ∉ l.map Prod.fst := by
  induction l with
  | nil => simp
  | cons p rest ih =>
    rw [rawLookup] at h
    by_cases hp : p.1 = k
    · simp [hp] at h
    · rw [if_neg hp] at h
      simp only [List.map_cons, List.mem_cons]
      push_neg
      exact ⟨fun hk => hp hk.symm, ih h⟩

theorem rawLookup_map_overwrite {α : Type} (l : List (String × α))
    {k k' : String} (v : α) (hne : k ≠ k') :
    rawLookup (l.map (fun p => if p.1 = k then (k, v) else p)) k'
      = rawLookup l k' := by
  induction l with
  | nil => rfl
  | cons p rest ih =>
    rw [List.map_cons]
    by_cases hp : p.1 = k
    · rw [if_pos hp]
      simp only [rawLookup]
      rw [if_neg hne, if_neg (fun h : p.1 = k' => hne (hp ▸ h))]
      exact ih
    · rw [if_neg hp]
      simp only [rawLookup]
      by_cases hk' : p.1 = k'
      · rw [if_pos hk', if_pos hk']
      · rw [if_neg hk', if_neg hk']
        exact ih

theorem rawLookup_map_overwrite_self {α : Type} {l : List (String × α)}
    {k : String} (v : α) (h : l.any (fun p => p.1 = k)) :
    rawLookup (l.map (fun p => if p.1 = k then (k, v) else p)) k = some v := by
  induction l with
  | nil => simp at h
  | cons p rest ih =>
    rw [List.map_cons]
    by_cases hp : p.1 = k
    · rw [if_pos hp]
      simp [rawLookup]
    · rw [if_neg hp]
      simp only [rawLookup]
      rw [if_neg hp]
      refine ih ?_
      simp only [List.any_cons] at h
      rcases Bool.or_eq_true_iff.1 h with h1 | h2
      · exact absurd (of_decide_eq_true h1) hp
      · exact h2

theorem rawLookup_dictInsert {α : Type} (d : List (String × α))
    (k k' : String) (v : α) :
    rawLookup (dictInsert d k v) k'
      = if k = k' then some v else rawLookup d k' := by
  unfold dictInsert
  by_cases hany : d.any (fun p => p.1 = k)
  · rw [if_pos hany]
    by_cases hk : k = k'
    · subst hk
      rw [if_pos rfl]
      exact rawLookup_map_overwrite_self v hany
    · rw [if_neg hk]
      exact rawLookup_map_overwrite d v hk
  · rw [if_neg hany]
    by_cases hk : k = k'
    · subst hk
      have hnone : rawLookup d k = none := by
        apply rawLookup_eq_none_of_not_mem
        intro hmem
        apply hany
        simp only [List.mem_map] at hmem
        obtain ⟨p, hp, hpk⟩ := hmem
        exact List.any_eq_true.2 ⟨p, hp, by simp [hpk]⟩
      rw [if_pos rfl, rawLookup_append_of_none hnone]
      simp [rawLookup]
    · rw [if_neg hk]
      cases hd : rawLookup d k' with
      | some w => exact rawLookup_append_of_some hd
      | none =>
        rw [rawLookup_append_of_none hd]
        simp [rawLookup, hk]

theorem keys_dictInsert {α : Type} (d : List (String × α)) (k : String)
    (v : α) :
    (dictInsert d k v).map Prod.fst
      = if d.any (fun p => p.1 = k) then d.map Prod.fst
        else d.map Prod.fst ++ [k] := by
  unfold dictInsert
  by_cases hany : d.any (fun p => p.1 = k)
  · rw [if_pos hany, if_pos hany, List.map_map]
    refine List.map_congr_left fun p _ => ?_
    by_cases hp : p.1 = k
    · simp [hp]
    · simp [hp]
  · rw [if_neg hany, if_neg hany]
    simp

theorem nodup_keys_dictInsert {α : Type} {d : List (String × α)}
    (hd : (d.map Prod.fst).Nodup) (k : String) (v : α) :
    ((dictInsert d k v).map Prod.fst).Nodup := by
  rw [keys_dictInsert]
  by_cases hany : d.any (fun p => p.1 = k)
  · rw [if_pos hany]; exact hd
  · rw [if_neg hany]
    have hk : k ∉ d.map Prod.fst := by
      intro hmem
      apply hany
      simp only [List.mem_map] at hmem
      obtain ⟨p, hp, hpk⟩ := hmem
      exact List.any_eq_true.2 ⟨p, hp, by simp [hpk]⟩
    simp [List.nodup_append, hd, hk]

theorem mem_dictInsert {α : Type} {d : List (String × α)}
    {k : String} {v : α} {p : String × α} (h : p ∈ dictInsert d k v) :
    p ∈ d ∨ p = (k, v) := by
  unfold dictInsert at h
  by_cases hany : d.any (fun q => q.1 = k)
  · rw [if_pos hany] at h
    rw [List.mem_map] at h
    obtain ⟨q, hq, hqp⟩ := h
    by_cases hqk : q.1 = k
    · right; rw [← hqp, if_pos hqk]
    · left; rw [← hqp, if_neg hqk]; exact hq
  · rw [if_neg hany, List.mem_append] at h
    rcases h with h | h
    · exact Or.inl h
    · right; simpa using h

/-- Lookup in `get_all` is the last-enumerated matching subclass
(generalised over the dict built so far). -/
theorem rawLookup_foldl_dictInsert (subs : List StrategyType)
    (d : List (String × StrategyType)) (k : String) :
    rawLookup (subs.foldl (fun d c => dictInsert d (pyLower c.display_name) c) d) k
      = subs.foldl
          (fun acc c => if pyLower c.display_name = k then some c else acc)
          (rawLookup d k) := by
  induction subs generalizing d with
  | nil => rfl
  | cons c rest ih =>
    simp only [List.foldl_cons]
    rw [ih, rawLookup_dictInsert]

theorem rawLookup_get_all (subs : List StrategyType) (k : String) :
    rawLookup (get_all subs) k = lastMatch subs k :=
  rawLookup_foldl_dictInsert subs [] k

theorem nodup_keys_get_all (subs : List StrategyType) :
    ((get_all subs).map Prod.fst).Nodup := by
  have main : ∀ (l : List StrategyType) (d : List (String × StrategyType)),
      (d.map Prod.fst).Nodup →
      ((l.foldl (fun d c => dictInsert d (pyLower c.display_name) c) d).map
        Prod.fst).Nodup := by
    intro l
    induction l with
    | nil => intro d hd; exact hd
    | cons c rest ih =>
      intro d hd
      exact ih _ (nodup_keys_dictInsert hd _ _)
  exact main subs [] (by simp)

/-- Every entry the comprehension produces is keyed by the lower-cased
display name of its value. -/
theorem key_eq_of_mem_get_all {subs : List StrategyType}
    {p : String × StrategyType} (h : p ∈ get_all subs) :
    p.1 = pyLower p.2.display_name := by
  have main : ∀ (l : List StrategyType) (d : List (String × StrategyType)),
      (∀ q ∈ d, q.1 = pyLower q.2.display_name) →
      ∀ q ∈ l.foldl (fun d c => dictInsert d (pyLower c.display_name) c) d,
        q.1 = pyLower q.2.display_name := by
    intro l
    induction l with
    | nil => intro d hd; exact hd
    | cons c rest ih =>
      intro d hd
      refine ih _ fun q hq => ?_
      rcases mem_dictInsert hq with hq' | hq'
      · exact hd q hq'
      · rw [hq']
  exact main subs [] (by simp) p h

theorem rawLookup_of_mem_nodup {α : Type} {d : List (String × α)}
    {k : String} {v : α} (hnd : (d.map Prod.fst).Nodup)
    (hmem : (k, v) ∈ d) : rawLookup d k = some v := by
  induction d with
  | nil => simp at hmem
  | cons p rest ih =>
    simp only [List.map_cons, List.nodup_cons] at hnd
    rw [List.mem_cons] at hmem
    rcases hmem with hmem | hmem
    · rw [← hmem]
      simp [rawLookup]
    · have hk : p.1 ≠ k := by
        intro hpk
        exact hnd.1 (hpk ▸ (List.mem_map.2 ⟨(k, v), hmem, rfl⟩))
      simp only [rawLookup]
      rw [if_neg hk]
      exact ih hnd.2 hmem

theorem entriesFor_of_rawLookup {α : Type} {d : List (String × α)}
    {k : String} {v : α} (hnd : (d.map Prod.fst).Nodup)
    (hl : rawLookup d k = some v) : entriesFor d k = [(k, v)] := by
  induction d with
  | nil => simp [rawLookup] at hl
  | cons p rest ih =>
    simp only [List.map_cons, List.nodup_cons] at hnd
    simp only [rawLookup] at hl
    by_cases hp : p.1 = k
    · rw [if_pos hp] at hl
      have hveq : p = (k, v) := by
        cases p with
        | mk a b => simp only at hp; cases hp; simpa using hl
      have hrest : entriesFor rest k = [] := by
        unfold entriesFor
        rw [List.filter_eq_nil_iff]
        intro q hq hkq
        apply hnd.1
        have : q.1 = k := by simpa using hkq
        exact hp ▸ this ▸ List.mem_map.2 ⟨q, hq, rfl⟩
      unfold entriesFor at hrest ⊢
      rw [List.filter_cons, if_pos (by simp [hp]), hrest, hveq]
    · rw [if_neg hp] at hl
      unfold entriesFor at ih ⊢
      rw [List.filter_cons, if_neg (by simp [hp])]
      exact ih hnd.2 hl

instance {ε α : Type} [DecidableEq ε] [DecidableEq α] :
    DecidableEq (Except ε α) := fun a b =>
  match a, b with
  | .ok x, .ok y =>
    if h : x = y then isTrue (by rw [h])
    else isFalse fun hc => h (Except.ok.inj hc)
  | .error x, .error y =>
    if h : x = y then isTrue (by rw [h])
    else isFalse fun hc => h (Except.error.inj hc)
  | .ok _, .error _ => isFalse fun hc => Except.noConfusion hc
  | .error _, .ok _ => isFalse fun hc => Except.noConfusion hc

/-! ### Concrete fixtures

Small registries used to instantiate the theorems: a registry with the two
strategies of the spec's scenario ("simple" and "margin"), and one in which
two classes normalize to the same lower-cased display name. -/

def subs0 : List StrategyType :=
  [⟨0, "Simple"⟩, ⟨1, "Margin"⟩]

def subsCollide : List StrategyType :=
  [⟨0, "SIMPLE"⟩, ⟨1, "Simple"⟩]

/-! ### Claim theorems -/

/-- C1: round-trip lookup.  For every concrete strategy type `T` appearing
as a value in the mapping returned by `get_all()`, calling `find` with the
lower-cased display name of `T` returns exactly `T`. -/
theorem roundtrip_lookup (subs : List StrategyType) (k : String)
    (T : StrategyType) (h : (k, T) ∈ get_all subs) :
    find subs (pyLower T.display_name) = .ok T := by
  have hkey : k = pyLower T.display_name := key_eq_of_mem_get_all h
  have hlook : rawLookup (get_all subs) k = some T :=
    rawLookup_of_mem_nodup (nodup_keys_get_all subs) h
  simp only [find]
  rw [pyLower_idem, ← hkey, hlook]

theorem roundtrip_lookup_witness :
    ("simple", StrategyType.mk 0 "Simple") ∈ get_all subs0 ∧
    find subs0 (pyLower (StrategyType.mk 0 "Simple").display_name)
      = .ok ⟨0, "Simple"⟩ :=
  ⟨by decide, roundtrip_lookup subs0 "simple" ⟨0, "Simple"⟩ (by decide)⟩

/-- C2: settings bound enforcement.  Constructing `StrategySettings` with
`history_duration < 1` or `timeframe_duration < 1` always fails with a
validation error; constructing with both values `≥ 1` always succeeds and
stores them; after any successful construction both fields are `≥ 1`; the
defaults when both fields are omitted are `336` hours and `15` minutes. -/
theorem settings_bound_enforcement :
    (∀ h t : ℚ, (h < 1 ∨ t < 1) →
      ∃ e, validateStrategySettings (some h) (some t) = .error e) ∧
    (∀ h t : ℚ, 1 ≤ h → 1 ≤ t →
      validateStrategySettings (some h) (some t) = .ok ⟨h, t⟩) ∧
    (∀ oh ot s, validateStrategySettings oh ot = .ok s →
      1 ≤ s.history_duration ∧ 1 ≤ s.timeframe_duration) ∧
    validateStrategySettings none none = .ok ⟨336, 15⟩ := by
  refine ⟨?_, ?_, ?_, ?_⟩
  · intro h t hlt
    rcases hlt with hlt | hlt
    · by_cases ht : t < 1
      · exact ⟨⟨["history_duration", "timeframe_duration"]⟩,
          by simp [validateStrategySettings, hlt, ht]⟩
      · exact ⟨⟨["history_duration"]⟩,
          by simp [validateStrategySettings, hlt, ht]⟩
    · by_cases hh : h < 1
      · exact ⟨⟨["history_duration", "timeframe_duration"]⟩,
          by simp [validateStrategySettings, hlt, hh]⟩
      · exact ⟨⟨["timeframe_duration"]⟩,
          by simp [validateStrategySettings, hlt, hh]⟩
  · intro h t hh ht
    simp [validateStrategySettings, not_lt.2 hh, not_lt.2 ht]
  · intro oh ot s hok
    by_cases hh : oh.getD (24 * 7 * 2) < 1 <;>
        by_cases ht : ot.getD 15 < 1 <;>
        simp [validateStrategySettings, hh, ht] at hok
    rw [← hok]
    exact ⟨not_lt.1 hh, not_lt.1 ht⟩
  · simp [validateStrategySettings]
    norm_num

theorem settings_bound_enforcement_witness :
    ((1 : ℚ) / 2 < 1 ∨ (15 : ℚ) < 1) ∧
    (∃ e, validateStrategySettings (some (1 / 2)) (some 15) = .error e) ∧
    validateStrategySettings (some 168) (some 15) = .ok ⟨168, 15⟩ :=
  ⟨Or.inl (by norm_num),
   settings_bound_enforcement.1 (1 / 2) 15 (Or.inl (by norm_num)),
   settings_bound_enforcement.2.1 168 15 (by norm_num) (by norm_num)⟩

/-- C3: unknown-name error.  For any name whose lower-cased form is not a
key of `get_all()`, `find` fails with an unknown-strategy-name error that
carries the requested name and lists every name currently returned by
`get_all()` (the error message interpolates exactly these fields). -/
theorem unknown_name_error (subs : List StrategyType) (name : String)
    (h : pyLower name ∉ (get_all subs).map Prod.fst) :
    find subs name = .error ⟨name, (get_all subs).map Prod.fst⟩ := by
  simp only [find]
  rw [rawLookup_eq_none_of_not_mem h]

theorem unknown_name_error_witness :
    pyLower "does-not-exist" ∉ (get_all subs0).map Prod.fst ∧
    find subs0 "does-not-exist"
      = .error ⟨"does-not-exist", ["simple", "margin"]⟩ :=
  ⟨by decide,
   (unknown_name_error subs0 "does-not-exist" (by decide)).trans (by decide)⟩

/-- C4 counterexample: `find(name)` does not return the very same result as
`find(name.lower())` on a miss, because the raised error interpolates the
original (not lower-cased) name into its message. -/
theorem case_insensitive_lookup_counterexample :
    find subs0 "FOO" ≠ find subs0 (pyLower "FOO") := by decide

/-- C4 (amended): `find(name)` behaves exactly like `find(name.lower())` up
to the echoed name in the failure message: same type on success, failure in
precisely the same cases, and the error's list of available names is the
same; only the `name` interpolated into the message keeps its original
casing. -/
theorem case_insensitive_lookup_amended (subs : List StrategyType)
    (name : String) :
    find subs name = Except.mapError (fun e => ⟨name, e.available⟩)
      (find subs (pyLower name)) := by
  simp only [find]
  rw [pyLower_idem]
  cases rawLookup (get_all subs) (pyLower name) <;> rfl

/-- C5: settings-type extraction.  `get_settings_type()` on a concrete
strategy declared as `class S(BaseStrategy[SettingsSub])` returns exactly
`SettingsSub`; on a concrete strategy declared as `class S(BaseStrategy)`
(generic parameter not specialized) it fails — `__orig_bases__` is then the
tuple inherited from `BaseStrategy` itself, whose first element is
`abc.ABC`, so `get_args(...)[0]` raises (`none`), the malformed-definition
error of the spec. -/
theorem settings_type_extraction :
    (∀ s : String, get_settings_type (origBasesSpecialized s)
      = some (.settings s)) ∧
    get_settings_type origBasesUnspecialized = none :=
  ⟨fun _ => rfl, rfl⟩

/-- C6: derived time intervals.  For every successfully constructed
`StrategySettings`, `history_timedelta` is the timedelta of exactly
`history_duration` hours (`history_duration * 3600` seconds) and
`timeframe_timedelta` the timedelta of exactly `timeframe_duration` minutes
(`timeframe_duration * 60` seconds).  Both accessors are total functions of
the stored fields (no failure mode, no side effects). -/
theorem derived_time_intervals (oh ot : Option ℚ) (s : StrategySettings)
    (_valid : validateStrategySettings oh ot = .ok s) :
    s.history_timedelta.total_seconds = s.history_duration * 3600 ∧
    s.timeframe_timedelta.total_seconds = s.timeframe_duration * 60 ∧
    s.history_timedelta = timedelta_hours s.history_duration ∧
    s.timeframe_timedelta = timedelta_minutes s.timeframe_duration :=
  ⟨rfl, rfl, rfl, rfl⟩

theorem derived_time_intervals_witness :
    validateStrategySettings (some 168) (some 15) = .ok ⟨168, 15⟩ ∧
    (StrategySettings.mk 168 15).history_timedelta.total_seconds = 604800 := by
  have h : validateStrategySettings (some 168) (some 15) = .ok ⟨168, 15⟩ := by
    decide
  refine ⟨h, ?_⟩
  rw [(derived_time_intervals (some 168) (some 15) ⟨168, 15⟩ h).1]
  norm_num

/-- C7: name-collision overwrite.  Whenever at least one enumerated
subclass normalizes to the key `k` (in particular when two do), the mapping
built by `get_all()` contains exactly one entry for `k`, and its value is
the last-enumerated subclass whose lower-cased display name is `k` — the
later silently overwrites the earlier. -/
theorem name_collision_overwrite (subs : List StrategyType) (k : String)
    (c : StrategyType) (h : lastMatch subs k = some c) :
    entriesFor (get_all subs) k = [(k, c)] :=
  entriesFor_of_rawLookup (nodup_keys_get_all subs)
    ((rawLookup_get_all subs k).trans h)

theorem name_collision_overwrite_witness :
    lastMatch subsCollide "simple" = some ⟨1, "Simple"⟩ ∧
    entriesFor (get_all subsCollide) "simple" = [("simple", ⟨1, "Simple"⟩)] :=
  ⟨by decide,
   name_collision_overwrite subsCollide "simple" ⟨1, "Simple"⟩ (by decide)⟩

/-- C8 counterexample: `ResourceRecommendation` does not enforce
non-negativity — its fields are declared `Optional[Decimal]` with no bound,
so a recommendation whose `request` is the negative value `-1` is
constructible. -/
theorem nonneg_recommendation_counterexample :
    (constructResourceRecommendation (some (some (-1))) none).request
      = some (-1) ∧ ¬ (0 : ℚ) ≤ (-1 : ℚ) :=
  ⟨rfl, by norm_num⟩

/-- C8 (amended): construction stores the supplied optional decimal values
unchanged, so a constructed `ResourceRecommendation` has non-negative
present fields exactly when the caller only supplies non-negative values
(or omits them); the model itself enforces no sign constraint. -/
theorem nonneg_recommendation_amended (rq lm : Option (Option ℚ)) (x : ℚ)
    (hrq : ∀ y, rq = some (some y) → 0 ≤ y)
    (hlm : ∀ y, lm = some (some y) → 0 ≤ y) :
    ((constructResourceRecommendation rq lm).request = some x → 0 ≤ x) ∧
    ((constructResourceRecommendation rq lm).limit = some x → 0 ≤ x) := by
  constructor
  · intro hx
    cases rq with
    | none => simp [constructResourceRecommendation] at hx
    | some r =>
      simp only [constructResourceRecommendation, Option.getD_some] at hx
      exact hrq x (by rw [hx])
  · intro hx
    cases lm with
    | none => simp [constructResourceRecommendation] at hx
    | some l =>
      simp only [constructResourceRecommendation, Option.getD_some] at hx
      exact hlm x (by rw [hx])

theorem nonneg_recommendation_amended_witness :
    ((constructResourceRecommendation (some (some 2)) none).request = some 2 →
      (0 : ℚ) ≤ 2) ∧
    ((constructResourceRecommendation (some (some 2)) none).limit = some 2 →
      (0 : ℚ) ≤ 2) :=
  nonneg_recommendation_amended (some (some 2)) none 2
    (fun y hy => by
      have h2 : y = 2 := (Option.some.inj (Option.some.inj hy)).symm
      rw [h2]; norm_num)
    (fun y hy => by cases hy)

/-- C9: default recommendation construction.  Supplying neither field
succeeds (pydantic v1 gives `Optional` fields the implicit default `None`)
and yields a recommendation with both `request` and `limit` absent — the
"recommend no bound" value is constructible with no arguments. -/
theorem default_recommendation_construction :
    constructResourceRecommendation none none
      = (⟨none, none⟩ : ResourceRecommendation) ∧
    (constructResourceRecommendation none none).request = none ∧
    (constructResourceRecommendation none none).limit = none :=
  ⟨rfl, rfl, rfl⟩

theorem rawLookup_middle {α : Type} (pre post : List (String × α))
    {k key : String} (v : α) (hne : k ≠ key) :
    rawLookup (pre ++ (k, v) :: post) key = rawLookup (pre ++ post) key := by
  induction pre with
  | nil =>
    simp only [List.nil_append, rawLookup]
    rw [if_neg hne]
  | cons p rest ih =>
    simp only [List.cons_append, rawLookup, List.append_eq]
    rw [ih]

/-- C10: unknown settings keys ignored.  Constructing `StrategySettings`
from a raw mapping containing a key other than the two declared fields
gives exactly the same outcome as without that key (pydantic's default
`Extra.ignore` drops it): the extra key can neither cause a validation
error nor be stored, since the model reads only its declared fields. -/
theorem unknown_settings_keys_ignored (pre post : List (String × ℚ))
    (k : String) (v : ℚ) (h1 : k ≠ "history_duration")
    (h2 : k ≠ "timeframe_duration") :
    parseStrategySettings (pre ++ (k, v) :: post)
      = parseStrategySettings (pre ++ post) := by
  unfold parseStrategySettings
  rw [rawLookup_middle pre post v h1, rawLookup_middle pre post v h2]

theorem unknown_settings_keys_ignored_witness :
    "extra_key" ≠ "history_duration" ∧
    "extra_key" ≠ "timeframe_duration" ∧
    parseStrategySettings [("history_duration", 168), ("extra_key", 5)]
      = parseStrategySettings [("history_duration", 168)] :=
  ⟨by decide, by decide,
   unknown_settings_keys_ignored [("history_duration", 168)] [] "extra_key" 5
     (by decide) (by decide)⟩
